import Mathlib

/-!
Verification of the serde-typed combinator library (TypeScript).

The development shallowly embeds the library's converter combinators
(src/serializers/primitives.ts, src/serializers/complex.ts,
src/serializers/modifiers.ts) over a model of JavaScript runtime values.
JavaScript numbers are modelled as integers (no claim depends on float
behaviour), a `Date` object is modelled by its millisecond timestamp, and
the host platform's Date/ISO-string builtins are modelled abstractly by a
`DateImpl` record since they are external to the repository.

Converters return either a bare value (JS `return`) or a thrown error
message; both the throwing variants and the `Result`-returning variants
are modelled with `Except String`, where `.error` means a thrown `Error`
for the throwing family and an `{ok: false, error}` result for the safe
family.  A JS runtime crash that is not a deserialization failure (e.g. a
`TypeError` from indexing `undefined` during serialization) is modelled by
`Option.none` on the serialization side.
-/

namespace SerdeSpec

/-- A JavaScript runtime value as far as the library can observe it:
primitive strings/numbers/booleans, `null`, `undefined`, arrays, plain
objects (ordered string-keyed entry lists, keys unique in any value that a
real JS program can produce), and `Date` objects carried as their
millisecond timestamp. -/
inductive JSValue : Type where
  | str (s : String)
  | num (n : Int)
  | bool (b : Bool)
  | null
  | undef
  | arr (items : List JSValue)
  | obj (entries : List (String × JSValue))
  | date (t : Int)

/-- JavaScript `typeof`. `typeof null`, arrays and `Date` objects are all
`"object"`. -/
def typeofJS : JSValue → String
  | .str _ => "string"
  | .num _ => "number"
  | .bool _ => "boolean"
  | .null => "object"
  | .undef => "undefined"
  | .arr _ => "object"
  | .obj _ => "object"
  | .date _ => "object"

/-- JavaScript `String(x)` / template-literal coercion, for the values the
library ever prints into error messages (literal, enum and union-tag
values are primitives by their TypeScript type bounds).  Arrays join their
elements; the object and Date renderings are fixed placeholders (the real
Date rendering is host- and locale-dependent and no message in the library
depends on it). -/
def jsToString : JSValue → String
  | .str s => s
  | .num n => toString n
  | .bool b => Bool.rec "false" "true" b
  | .null => "null"
  | .undef => "undefined"
  | .arr _ => "[Array]"
  | .obj _ => "[object Object]"
  | .date _ => "[Date]"

/-- JavaScript strict equality `===` as used by the literal combinator
(`serialized === literal`) and `Array.prototype.includes`.  On the
primitive values it is structural; two object-like values compare by
reference, which the model renders as `false` (the cases in which the
library performs such a comparison compare a wire input against a literal
that is a primitive by its TypeScript bound). -/
def strictEq : JSValue → JSValue → Bool
  | .str a, .str b => a == b
  | .num a, .num b => a == b
  | .bool a, .bool b => a == b
  | .null, .null => true
  | .undef, .undef => true
  | _, _ => false

/-- First-match lookup in an object's entry list; a missing property reads
as `undefined`, as in JavaScript. -/
def objGet : List (String × JSValue) → String → JSValue
  | [], _ => .undef
  | (k', v) :: rest, k => if k' = k then v else objGet rest k

/-- Whether an entry list has a property with the given key. -/
def objHas : List (String × JSValue) → String → Bool
  | [], _ => false
  | (k', _) :: rest, k => k' = k || objHas rest k

/-- JavaScript property assignment `o[k] = v` on an entry list: update the
existing slot in place (property insertion order is preserved), else
append. -/
def objAssign : List (String × JSValue) → String → JSValue → List (String × JSValue)
  | [], k, v => [(k, v)]
  | (k', v') :: rest, k, v =>
    if k' = k then (k', v) :: rest else (k', v') :: objAssign rest k v

/-- Assign a list of key/value pairs in order onto an entry list, i.e. the
tail of a JS object spread `{...base, ...updates}` or a sequence of
assignments in a loop. -/
def objAssignAll (base : List (String × JSValue)) : List (String × JSValue) → List (String × JSValue)
  | [] => base
  | (k, v) :: rest => objAssignAll (objAssign base k v) rest

/-- `typeof x === "object" && x !== null && !Array.isArray(x)`, the shape
guard used by the object/record/union/mapped/rename deserializers.  Plain
objects and `Date` objects pass it. -/
def isStructuralObject : JSValue → Bool
  | .obj _ => true
  | .date _ => true
  | _ => false

/-- The own enumerable entries of a value, as consulted by property reads
after a structural-object guard and by `for (const key in x)` iteration.
A `Date` has no own enumerable properties. -/
def entriesOf : JSValue → List (String × JSValue)
  | .obj es => es
  | _ => []

/-- `for (const key in x)` iteration order, also used for object spread
`{...x}`: entries of a plain object, index keys of an array, index keys of
a string, nothing for primitives, `null`, `undefined` and `Date`s. -/
def enumEntries : JSValue → List (String × JSValue)
  | .obj es => es
  | .arr xs => xs.enum.map (fun p => (toString p.1, p.2))
  | .str s => s.toList.enum.map (fun p => (toString p.1, .str (String.singleton p.2)))
  | _ => []

/-- JavaScript property read `x[k]` with a string key.  Reading from
`null`/`undefined` is a `TypeError`, modelled as `none`.  Numeric-string
keys index arrays; anything else on a non-object reads `undefined` (the
model ignores prototype properties, which no combinator consults by a data
key). -/
def jsIndex : JSValue → String → Option JSValue
  | .null, _ => none
  | .undef, _ => none
  | .obj es, k => some (objGet es k)
  | .arr xs, k =>
    match k.toNat? with
    | some i => some (xs.getD i .undef)
    | none => some .undef
  | .str s, k =>
    match k.toNat? with
    | some i => some (if i < s.length then .str (String.singleton (s.toList.getD i 'a')) else .undef)
    | none => some .undef
  | .num _, _ => some .undef
  | .bool _, _ => some .undef
  | .date _, _ => some (.undef)

/-- JavaScript indexed read `x[i]` with a number index (the tuple
serializer's `value[i]`). -/
def jsIndexNat : JSValue → Nat → Option JSValue
  | .null, _ => none
  | .undef, _ => none
  | .arr xs, i => some (xs.getD i .undef)
  | .obj es, i => some (objGet es (toString i))
  | .str s, i => some (if i < s.length then .str (String.singleton (s.toList.getD i 'a')) else .undef)
  | .num _, _ => some .undef
  | .bool _, _ => some .undef
  | .date _, _ => some (.undef)

/-- Modelled from the spec: the host platform's Date builtins, which are
external to the repository.  `toISO` models `Date.prototype.toISOString`
("serialize emits ISO-8601 string via standard date-to-string
conversion") and `parse` models `new Date(string)` followed by the
`Number.isNaN(d.getTime())` validity test, `none` standing for an invalid
date (NaN timestamp).  ECMAScript guarantees that parsing a string
produced by `toISOString` recovers the same time value; theorems that
need this take it as an explicit hypothesis on the `DateImpl`. -/
structure DateImpl : Type where
  toISO : Int → String
  parse : String → Option Int

mutual
/-- The converter grammar: one constructor per combinator of the public
surface (src/index.ts / §6 of the spec).  `literal` carries the fixed
constant, `enumC` the value set of the enum mapping, `union` its variant
table, tag-extraction function and tag field name, `lazyC` the converter
the zero-argument factory evaluates to (the factory's one-shot
memoization is a separate, stateful model below).  Field and item lists
are the mutually inductive `Fields`/`Convs` so that every semantic
function is structurally recursive and computable by `rfl`. -/
inductive Conv : Type where
  | stringC
  | numberC
  | booleanC
  | dateC
  | literal (v : JSValue)
  | enumC (validValues : List JSValue)
  | object (fields : Fields)
  | array (item : Conv)
  | tuple (items : Convs)
  | record (valueC : Conv)
  | union (variants : Fields) (tagExtractor : JSValue → String) (tagField : String)
  | optional (inner : Conv)
  | nullable (inner : Conv)
  | withDefault (inner : Conv) (d : JSValue)
  | mapped (inner : Conv) (keyTable : List (String × String))
  | rename (inner : Conv) (fieldMapping : List (String × String))
  | lazyC (inner : Conv)

/-- An ordered name-to-converter table (an object converter's field table,
a union converter's variant table). -/
inductive Fields : Type where
  | nil
  | cons (name : String) (c : Conv) (rest : Fields)

/-- An ordered converter list (a tuple converter's item converters). -/
inductive Convs : Type where
  | nil
  | cons (c : Conv) (rest : Convs)
end

/-- The field names of a `Fields` table, in declaration order. -/
def Fields.names : Fields → List String
  | .nil => []
  | .cons k _ rest => k :: Fields.names rest

/-- The `Fields` table as a list of name/converter pairs. -/
def Fields.toList : Fields → List (String × Conv)
  | .nil => []
  | .cons k c rest => (k, c) :: Fields.toList rest

/-- First-match lookup of a converter by name (`fields[key]` /
`variants[tag]`; `none` models the JS value `undefined`). -/
def Fields.lookup : Fields → String → Option Conv
  | .nil, _ => none
  | .cons k c rest, key => if k = key then some c else Fields.lookup rest key

/-- Concatenation of field tables (used to state positional properties
about field iteration). -/
def Fields.append : Fields → Fields → Fields
  | .nil, gs => gs
  | .cons k c rest, gs => .cons k c (Fields.append rest gs)

/-- The number of item converters of a tuple (`serdes.length`). -/
def Convs.length : Convs → Nat
  | .nil => 0
  | .cons _ rest => Nat.succ (Convs.length rest)

/-- `xs.map f` where `f` may crash (`none`), crashing the whole map, as in
`Array.prototype.map` over a possibly-crashing callback. -/
def mapOptionJS (f : JSValue → Option JSValue) : List JSValue → Option (List JSValue)
  | [] => some []
  | x :: r => do
    let y ← f x
    let ys ← mapOptionJS f r
    pure (y :: ys)

/-- Serialize each entry value of a record with a possibly-crashing
serializer, keeping the keys (the record serializer's `for (const key in
value) result[key] = serialize(value[key])`). -/
def mapEntriesOptionJS (f : JSValue → Option JSValue) : List (String × JSValue) → Option (List (String × JSValue))
  | [] => some []
  | (k, x) :: r => do
    let y ← f x
    let ys ← mapEntriesOptionJS f r
    pure ((k, y) :: ys)

/-- The mapped serializer's projection loop:
`for (const [externalKey, internalKey] of Object.entries(mapping))
result[externalKey] = serialized[internalKey]` (a raw property read on the
inner serializer's output, which crashes if that output is
`null`/`undefined`). -/
def mappedProjectAux (w : JSValue) : List (String × String) → Option (List (String × JSValue))
  | [] => some []
  | (externalKey, internalKey) :: rest => do
    let pv ← jsIndex w internalKey
    let others ← mappedProjectAux w rest
    pure ((externalKey, pv) :: others)

/-- The external-keyed object built by the mapped serializer. -/
def mappedProject (w : JSValue) (table : List (String × String)) : Option JSValue :=
  (mappedProjectAux w table).map JSValue.obj

/-- First-match lookup in a string-valued table (`fieldMapping[key]`,
`reverseMapping[key]`; `none` models `undefined`). -/
def strGet : List (String × String) → String → Option String
  | [], _ => none
  | (k', v) :: rest, k => if k' = k then some v else strGet rest k

/-- `fieldMapping[key] || key` — the rename serializer falls back to the
original key when the mapping has no entry for it, or maps it to a falsy
(empty) string. -/
def renameKey (fieldMapping : List (String × String)) (k : String) : String :=
  match strGet fieldMapping k with
  | some m => if m = "" then k else m
  | none => k

/-- The rename serializer's key-rewriting loop:
`for (const key in serialized) result[fieldMapping[key] || key] = serialized[key]`
(assignment semantics, so two keys mapping to the same name overwrite in
order). -/
def renameEntriesAux (fieldMapping : List (String × String)) (acc : List (String × JSValue)) : List (String × JSValue) → List (String × JSValue)
  | [] => acc
  | (k, v) :: rest => renameEntriesAux fieldMapping (objAssign acc (renameKey fieldMapping k) v) rest

/-- The rewritten entry list produced by the rename serializer. -/
def renameEntries (fieldMapping : List (String × String)) (es : List (String × JSValue)) : List (String × JSValue) :=
  renameEntriesAux fieldMapping [] es

mutual
/-- The `serialize` direction of every combinator, from
src/serializers/primitives.ts, src/serializers/complex.ts and
src/serializers/modifiers.ts (the `throwing.serialize` and
`safe.serialize` bodies of each combinator are textually identical, so one
definition serves both).  `none` models a JS runtime crash (`TypeError` /
`RangeError`), which deserialization failure never produces. -/
def serialize (D : DateImpl) : Conv → JSValue → Option JSValue
  | .stringC, v => some v
  | .numberC, v => some v
  | .booleanC, v => some v
  | .dateC, v =>
    match v with
    | .date t => some (.str (D.toISO t))
    | _ => none
  | .literal l, _ => some l
  | .enumC _, v => some v
  | .object fs, v => (serializeFields D fs v).map JSValue.obj
  | .array c, v =>
    match v with
    | .arr xs => (mapOptionJS (fun x => serialize D c x) xs).map JSValue.arr
    | _ => none
  | .tuple items, v => (serializeTupleAux D items v 0).map JSValue.arr
  | .record c, v => (mapEntriesOptionJS (fun x => serialize D c x) (enumEntries v)).map JSValue.obj
  | .union variants tagExtractor tagField, v =>
    (serializeUnionAux D variants (tagExtractor v) v).map (fun w =>
      JSValue.obj (objAssignAll [(tagField, .str (tagExtractor v))] (enumEntries w)))
  | .optional c, v =>
    match v with
    | .undef => some .undef
    | _ => serialize D c v
  | .nullable c, v =>
    match v with
    | .null => some .null
    | _ => serialize D c v
  | .withDefault c _, v => serialize D c v
  | .mapped c keyTable, v => do
    let w ← serialize D c v
    mappedProject w keyTable
  | .rename c fieldMapping, v =>
    (serialize D c v).map (fun w =>
      JSValue.obj (renameEntries fieldMapping (enumEntries w)))
  | .lazyC c, v => serialize D c v

/-- `for (const key in fields) result[key] = fields[key].serialize(value[key])`
of the object serializer; `value[key]` is a raw property read and crashes
on a `null`/`undefined` value. -/
def serializeFields (D : DateImpl) : Fields → JSValue → Option (List (String × JSValue))
  | .nil, _ => some []
  | .cons k c rest, v => do
    let pv ← jsIndex v k
    let sv ← serialize D c pv
    let others ← serializeFields D rest v
    pure ((k, sv) :: others)

/-- `serdes.map((serde, i) => serde.serialize(value[i]))` of the tuple
serializer. -/
def serializeTupleAux (D : DateImpl) : Convs → JSValue → Nat → Option (List JSValue)
  | .nil, _, _ => some []
  | .cons c rest, v, i => do
    let pv ← jsIndexNat v i
    let sv ← serialize D c pv
    let others ← serializeTupleAux D rest v (i + 1)
    pure (sv :: others)

/-- `variants[tagExtractor(value)]!.serialize(value)` of the union
serializer, with the table lookup fused into the traversal so that the
recursion is structural; a missing variant is the JS crash of calling a
method on `undefined` (`none`). -/
def serializeUnionAux (D : DateImpl) : Fields → String → JSValue → Option JSValue
  | .nil, _, _ => none
  | .cons k c rest, tag, v =>
    if k = tag then serialize D c v else serializeUnionAux D rest tag v
end

/-- Element loop of the array deserializers: each failing item is wrapped
as `Array item at index <i>: <error>` and aborts the loop. -/
def deserArrayItems (f : JSValue → Except String JSValue) : List JSValue → Nat → Except String (List JSValue)
  | [], _ => .ok []
  | x :: rest, i =>
    match f x with
    | .error e => .error ("Array item at index " ++ toString i ++ ": " ++ e)
    | .ok y =>
      match deserArrayItems f rest (i + 1) with
      | .error e => .error e
      | .ok ys => .ok (y :: ys)

/-- Entry loop of the record deserializers: each failing value is wrapped
as `Record key '<key>': <error>` and aborts the loop. -/
def deserRecordEntries (f : JSValue → Except String JSValue) : List (String × JSValue) → Except String (List (String × JSValue))
  | [] => .ok []
  | (k, x) :: rest =>
    match f x with
    | .error e => .error ("Record key '" ++ k ++ "': " ++ e)
    | .ok y =>
      match deserRecordEntries f rest with
      | .error e => .error e
      | .ok ys => .ok ((k, y) :: ys)

/-- Property assignment on a string-valued table (`reverseMapping[mappedKey]
= originalKey`). -/
def strAssign : List (String × String) → String → String → List (String × String)
  | [], k, v => [(k, v)]
  | (k', v') :: rest, k, v =>
    if k' = k then (k', v) :: rest else (k', v') :: strAssign rest k v

/-- The mapped deserializer's reconstruction loop:
`for (const [externalKey, internalKey] of Object.entries(mapping))
mapped[internalKey] = obj[externalKey]` starting from the accumulator
`acc = {}`. -/
def mappedReconstructAux (es : List (String × JSValue)) (acc : List (String × JSValue)) : List (String × String) → List (String × JSValue)
  | [] => acc
  | (externalKey, internalKey) :: rest =>
    mappedReconstructAux es (objAssign acc internalKey (objGet es externalKey)) rest

/-- The internal-keyed object handed to the inner converter by the mapped
deserializer. -/
def mappedReconstruct (es : List (String × JSValue)) (keyTable : List (String × String)) : List (String × JSValue) :=
  mappedReconstructAux es [] keyTable

/-- The rename deserializer's reverse-mapping construction:
`for (const [originalKey, mappedKey] of Object.entries(fieldMapping))
reverseMapping[mappedKey] = originalKey`. -/
def reverseMappingAux (acc : List (String × String)) : List (String × String) → List (String × String)
  | [] => acc
  | (originalKey, mappedKey) :: rest => reverseMappingAux (strAssign acc mappedKey originalKey) rest

/-- `reverseMapping[key] || key` of the rename deserializer. -/
def reverseKey (rev : List (String × String)) (k : String) : String :=
  match strGet rev k with
  | some s => if s = "" then k else s
  | none => k

/-- The rename deserializer's key-unmapping loop:
`for (const key in obj) unmapped[reverseMapping[key] || key] = obj[key]`. -/
def renameReconstructAux (rev : List (String × String)) (acc : List (String × JSValue)) : List (String × JSValue) → List (String × JSValue)
  | [] => acc
  | (k, v) :: rest => renameReconstructAux rev (objAssign acc (reverseKey rev k) v) rest

/-- The original-keyed object handed to the inner converter by the rename
deserializer. -/
def renameReconstruct (fieldMapping : List (String × String)) (es : List (String × JSValue)) : List (String × JSValue) :=
  renameReconstructAux (reverseMappingAux [] fieldMapping) [] es

mutual
/-- The result-returning (`safe`) `deserialize` of every combinator, from
the `safe` objects of src/serializers/primitives.ts,
src/serializers/complex.ts and src/serializers/modifiers.ts.  `.error e`
models the result `{ok: false, error: e}`. -/
def safeDeserialize (D : DateImpl) : Conv → JSValue → Except String JSValue
  | .stringC, v =>
    match v with
    | .str s => .ok (.str s)
    | _ => .error ("Expected string, got " ++ typeofJS v)
  | .numberC, v =>
    match v with
    | .num n => .ok (.num n)
    | _ => .error ("Expected number, got " ++ typeofJS v)
  | .booleanC, v =>
    match v with
    | .bool b => .ok (.bool b)
    | _ => .error ("Expected boolean, got " ++ typeofJS v)
  | .dateC, v =>
    match v with
    | .str s =>
      match D.parse s with
      | none => .error ("Invalid date string: " ++ s)
      | some t => .ok (.date t)
    | _ => .error ("Expected string for date, got " ++ typeofJS v)
  | .literal l, v =>
    if strictEq v l then .ok l
    else .error ("Expected literal " ++ jsToString l ++ ", got " ++ jsToString v)
  | .enumC validValues, v =>
    if validValues.any (fun u => strictEq u v) then .ok v
    else
      .error ("Invalid enum value: " ++ jsToString v ++ ". Expected one of: "
        ++ String.intercalate ", " (validValues.map jsToString))
  | .object fs, v =>
    if isStructuralObject v then (deserFieldsSafe D fs (entriesOf v)).map JSValue.obj
    else .error ("Expected object")
  | .array c, v =>
    match v with
    | .arr xs => (deserArrayItems (fun x => safeDeserialize D c x) xs 0).map JSValue.arr
    | _ => .error ("Expected array")
  | .tuple items, v =>
    match v with
    | .arr xs =>
      if xs.length = Convs.length items then (deserTupleSafe D items xs 0).map JSValue.arr
      else
        .error ("Expected tuple of length " ++ toString (Convs.length items)
          ++ ", got " ++ toString xs.length)
    | _ => .error ("Expected array for tuple")
  | .record c, v =>
    if isStructuralObject v then
      (deserRecordEntries (fun x => safeDeserialize D c x) (entriesOf v)).map JSValue.obj
    else .error ("Expected object for record")
  | .union variants _ tagField, v =>
    if isStructuralObject v then deserUnionSafe D variants (objGet (entriesOf v) tagField) v
    else .error ("Expected object for union")
  | .optional c, v =>
    match v with
    | .undef => .ok .undef
    | _ => safeDeserialize D c v
  | .nullable c, v =>
    match v with
    | .null => .ok .null
    | _ => safeDeserialize D c v
  | .withDefault c d, v =>
    match v with
    | .undef => .ok d
    | _ => safeDeserialize D c v
  | .mapped c keyTable, v =>
    if isStructuralObject v then safeDeserialize D c (.obj (mappedReconstruct (entriesOf v) keyTable))
    else .error ("Expected object for mapped type")
  | .rename c fieldMapping, v =>
    if isStructuralObject v then safeDeserialize D c (.obj (renameReconstruct fieldMapping (entriesOf v)))
    else .error ("Expected object for renamed type")
  | .lazyC c, v => safeDeserialize D c v

/-- Field loop of the safe object deserializer: declared fields in
declaration order, the first failure wrapped as `Field '<name>': <error>`. -/
def deserFieldsSafe (D : DateImpl) : Fields → List (String × JSValue) → Except String (List (String × JSValue))
  | .nil, _ => .ok []
  | .cons k c rest, es =>
    match safeDeserialize D c (objGet es k) with
    | .error e => .error ("Field '" ++ k ++ "': " ++ e)
    | .ok x =>
      match deserFieldsSafe D rest es with
      | .error e => .error e
      | .ok xs => .ok ((k, x) :: xs)

/-- Position loop of the safe tuple deserializer (runs after the array and
length checks): the first failure is wrapped as
`Tuple item at index <i>: <error>`. -/
def deserTupleSafe (D : DateImpl) : Convs → List JSValue → Nat → Except String (List JSValue)
  | .nil, _, _ => .ok []
  | .cons c rest, ws, i =>
    match safeDeserialize D c (ws.getD i .undef) with
    | .error e => .error ("Tuple item at index " ++ toString i ++ ": " ++ e)
    | .ok x =>
      match deserTupleSafe D rest ws (i + 1) with
      | .error e => .error e
      | .ok xs => .ok (x :: xs)

/-- Variant dispatch of the safe union deserializer, the table lookup
fused into the traversal: `tagVal` is `obj[tagField]`, matched against the
variant names through JS property-key coercion (`String(tag)`), and an
absent variant fails with `Unknown union variant: <tag>`. -/
def deserUnionSafe (D : DateImpl) : Fields → JSValue → JSValue → Except String JSValue
  | .nil, tagVal, _ => .error ("Unknown union variant: " ++ jsToString tagVal)
  | .cons k c rest, tagVal, v =>
    if k = jsToString tagVal then safeDeserialize D c v else deserUnionSafe D rest tagVal v
end

mutual
/-- The exception-raising (`throwing`) `deserialize` of every combinator,
from the `throwing` objects of src/serializers/primitives.ts,
src/serializers/complex.ts and src/serializers/modifiers.ts.  `.error e`
models a thrown `Error` with message `e`; a composite catches a child's
error and rethrows it with one context prefix
(`` `Field '${key}': ${error.message}` `` and the like). -/
def throwingDeserialize (D : DateImpl) : Conv → JSValue → Except String JSValue
  | .stringC, v =>
    match v with
    | .str s => .ok (.str s)
    | _ => .error ("Expected string, got " ++ typeofJS v)
  | .numberC, v =>
    match v with
    | .num n => .ok (.num n)
    | _ => .error ("Expected number, got " ++ typeofJS v)
  | .booleanC, v =>
    match v with
    | .bool b => .ok (.bool b)
    | _ => .error ("Expected boolean, got " ++ typeofJS v)
  | .dateC, v =>
    match v with
    | .str s =>
      match D.parse s with
      | none => .error ("Invalid date string: " ++ s)
      | some t => .ok (.date t)
    | _ => .error ("Expected string for date, got " ++ typeofJS v)
  | .literal l, v =>
    if strictEq v l then .ok l
    else .error ("Expected literal " ++ jsToString l ++ ", got " ++ jsToString v)
  | .enumC validValues, v =>
    if validValues.any (fun u => strictEq u v) then .ok v
    else
      .error ("Invalid enum value: " ++ jsToString v ++ ". Expected one of: "
        ++ String.intercalate ", " (validValues.map jsToString))
  | .object fs, v =>
    if isStructuralObject v then (deserFieldsThrow D fs (entriesOf v)).map JSValue.obj
    else .error ("Expected object")
  | .array c, v =>
    match v with
    | .arr xs => (deserArrayItems (fun x => throwingDeserialize D c x) xs 0).map JSValue.arr
    | _ => .error ("Expected array")
  | .tuple items, v =>
    match v with
    | .arr xs =>
      if xs.length = Convs.length items then (deserTupleThrow D items xs 0).map JSValue.arr
      else
        .error ("Expected tuple of length " ++ toString (Convs.length items)
          ++ ", got " ++ toString xs.length)
    | _ => .error ("Expected array for tuple")
  | .record c, v =>
    if isStructuralObject v then
      (deserRecordEntries (fun x => throwingDeserialize D c x) (entriesOf v)).map JSValue.obj
    else .error ("Expected object for record")
  | .union variants _ tagField, v =>
    if isStructuralObject v then deserUnionThrow D variants (objGet (entriesOf v) tagField) v
    else .error ("Expected object for union")
  | .optional c, v =>
    match v with
    | .undef => .ok .undef
    | _ => throwingDeserialize D c v
  | .nullable c, v =>
    match v with
    | .null => .ok .null
    | _ => throwingDeserialize D c v
  | .withDefault c d, v =>
    match v with
    | .undef => .ok d
    | _ => throwingDeserialize D c v
  | .mapped c keyTable, v =>
    if isStructuralObject v then throwingDeserialize D c (.obj (mappedReconstruct (entriesOf v) keyTable))
    else .error ("Expected object for mapped type")
  | .rename c fieldMapping, v =>
    if isStructuralObject v then throwingDeserialize D c (.obj (renameReconstruct fieldMapping (entriesOf v)))
    else .error ("Expected object for renamed type")
  | .lazyC c, v => throwingDeserialize D c v

/-- Field loop of the throwing object deserializer: a child's thrown error
is caught and rethrown as `Field '<name>': <message>`. -/
def deserFieldsThrow (D : DateImpl) : Fields → List (String × JSValue) → Except String (List (String × JSValue))
  | .nil, _ => .ok []
  | .cons k c rest, es =>
    match throwingDeserialize D c (objGet es k) with
    | .error e => .error ("Field '" ++ k ++ "': " ++ e)
    | .ok x =>
      match deserFieldsThrow D rest es with
      | .error e => .error e
      | .ok xs => .ok ((k, x) :: xs)

/-- Position loop of the throwing tuple deserializer. -/
def deserTupleThrow (D : DateImpl) : Convs → List JSValue → Nat → Except String (List JSValue)
  | .nil, _, _ => .ok []
  | .cons c rest, ws, i =>
    match throwingDeserialize D c (ws.getD i .undef) with
    | .error e => .error ("Tuple item at index " ++ toString i ++ ": " ++ e)
    | .ok x =>
      match deserTupleThrow D rest ws (i + 1) with
      | .error e => .error e
      | .ok xs => .ok (x :: xs)

/-- Variant dispatch of the throwing union deserializer. -/
def deserUnionThrow (D : DateImpl) : Fields → JSValue → JSValue → Except String JSValue
  | .nil, tagVal, _ => .error ("Unknown union variant: " ++ jsToString tagVal)
  | .cons k c rest, tagVal, v =>
    if k = jsToString tagVal then throwingDeserialize D c v else deserUnionThrow D rest tagVal v
end

/-- The dual-mode adapter `createSerde` (src/serializers/index.ts): the
throwing `deserialize` derived from a safe one returns `result.value` on
success and throws `new Error(result.error)` on failure. -/
def deriveThrowing (f : JSValue → Except String JSValue) (s : JSValue) : Except String JSValue :=
  match f s with
  | .ok v => .ok v
  | .error e => .error e

/-- The inverse adapter used throughout src/index.ts: a safe `deserialize`
derived from a throwing one by `try { return Ok(d(s)) } catch (e) {
return Err(e.message) }`. -/
def deriveSafe (f : JSValue → Except String JSValue) (s : JSValue) : Except String JSValue :=
  match f s with
  | .ok v => .ok v
  | .error e => .error e

/-- A concrete `DateImpl` used to instantiate theorems that hypothesise
the ECMAScript round-trip guarantee: it encodes a timestamp in unary,
which makes the round-trip property elementary to establish.  (It stands
in for the host's Gregorian ISO-8601 formatter, whose internal digit
layout no claim depends on.) -/
def unaryDateImpl : DateImpl where
  toISO t :=
    match t with
    | .ofNat n => String.mk (List.replicate n 'a')
    | .negSucc n => String.mk ('-' :: List.replicate n 'a')
  parse s :=
    match s.data with
    | '-' :: rest => if rest.all (fun c => c == 'a') then some (Int.negSucc rest.length) else none
    | l => if l.all (fun c => c == 'a') then some (Int.ofNat l.length) else none

/-- The witness `DateImpl` satisfies the ECMAScript guarantee that parsing
the ISO string of a time value recovers that time value. -/
theorem unaryDateImpl_roundtrip (t : Int) : unaryDateImpl.parse (unaryDateImpl.toISO t) = some t := by
  cases t with
  | ofNat n =>
    cases n with
    | zero => rfl
    | succ m =>
      show unaryDateImpl.parse (String.mk (List.replicate (m + 1) 'a')) = _
      simp only [unaryDateImpl, List.replicate_succ]
      simp [List.all_eq_true, List.mem_replicate]
  | negSucc n =>
    show unaryDateImpl.parse (String.mk ('-' :: List.replicate n 'a')) = _
    simp only [unaryDateImpl]
    simp [List.all_eq_true, List.mem_replicate]

/-- The memoization slot of one lazy converter
(src/serializers/modifiers.ts, `createLazySerializer`): the resolved
converter once the factory has run, plus an instrumentation counter of how
many times the factory has been invoked. -/
structure LazyState : Type where
  slot : Option Conv
  calls : Nat

/-- `getSerde()` of the lazy combinator: return the memoized converter, or
invoke the factory, record its result and count the invocation. -/
def lazyResolve (factory : Unit → Conv) (st : LazyState) : Conv × LazyState :=
  match st.slot with
  | some c => (c, st)
  | none => (factory (), { slot := some (factory ()), calls := st.calls + 1 })

/-- One public call on a lazy converter. -/
inductive LazyOp : Type where
  | serializeOp (v : JSValue)
  | safeDeserializeOp (v : JSValue)
  | throwingDeserializeOp (v : JSValue)

/-- The outcome of one public call on a lazy converter. -/
inductive LazyResult : Type where
  | serialized (r : Option JSValue)
  | deserialized (r : Except String JSValue)

/-- One call on the lazy converter: resolve the inner converter through
the memoization slot, then delegate. -/
def runLazyOp (D : DateImpl) (factory : Unit → Conv) (st : LazyState) : LazyOp → LazyResult × LazyState
  | .serializeOp v =>
    let (c, st') := lazyResolve factory st
    (.serialized (serialize D c v), st')
  | .safeDeserializeOp v =>
    let (c, st') := lazyResolve factory st
    (.deserialized (safeDeserialize D c v), st')
  | .throwingDeserializeOp v =>
    let (c, st') := lazyResolve factory st
    (.deserialized (throwingDeserialize D c v), st')

/-- A whole call sequence on one lazy converter, collecting every call's
outcome and threading the memoization slot. -/
def runLazyOps (D : DateImpl) (factory : Unit → Conv) (st : LazyState) : List LazyOp → List LazyResult × LazyState
  | [] => ([], st)
  | op :: ops =>
    let (r, st') := runLazyOp D factory st op
    let (rs, st'') := runLazyOps D factory st' ops
    (r :: rs, st'')

/-- What one call would return if it used a fixed converter directly. -/
def directResult (D : DateImpl) (c : Conv) : LazyOp → LazyResult
  | .serializeOp v => .serialized (serialize D c v)
  | .safeDeserializeOp v => .deserialized (safeDeserialize D c v)
  | .throwingDeserializeOp v => .deserialized (throwingDeserialize D c v)

/-- Whether a JS value is a primitive string, number or boolean (the
TypeScript bound on literal constants and enum members). -/
def isPrimitive : JSValue → Bool
  | .str _ => true
  | .num _ => true
  | .bool _ => true
  | _ => false

mutual
/-- Formalizes "value accepted by a converter's domain" (spec §3): the
typed values `T` that a converter is declared over, with object values in
declared-field order and object/record keys unique (as any value built by
a JS program has), literal/enum members primitive (their TypeScript
bound), and a union value dispatching through its own tag to a variant
that accepts it. -/
def accepts : Conv → JSValue → Bool
  | .stringC, v =>
    match v with
    | .str _ => true
    | _ => false
  | .numberC, v =>
    match v with
    | .num _ => true
    | _ => false
  | .booleanC, v =>
    match v with
    | .bool _ => true
    | _ => false
  | .dateC, v =>
    match v with
    | .date _ => true
    | _ => false
  | .literal l, v => strictEq v l && isPrimitive l
  | .enumC validValues, v => validValues.any (fun u => strictEq u v) && isPrimitive v
  | .object fs, v =>
    match v with
    | .obj es => decide (Fields.names fs).Nodup && acceptsFields fs es
    | _ => false
  | .array c, v =>
    match v with
    | .arr xs => xs.all (fun x => accepts c x)
    | _ => false
  | .tuple items, v =>
    match v with
    | .arr xs => acceptsTuple items xs
    | _ => false
  | .record c, v =>
    match v with
    | .obj es => decide (es.map Prod.fst).Nodup && es.all (fun p => accepts c p.2)
    | _ => false
  | .union variants tagExtractor _, v => acceptsUnion variants (tagExtractor v) v
  | .optional c, v =>
    match v with
    | .undef => true
    | _ => accepts c v
  | .nullable c, v =>
    match v with
    | .null => true
    | _ => accepts c v
  | .withDefault c _, v => accepts c v
  | .mapped c _, v => accepts c v
  | .rename c _, v => accepts c v
  | .lazyC c, v => accepts c v

/-- Domain acceptance for an object value against a field table: exactly
the declared fields, in declaration order, each value accepted. -/
def acceptsFields : Fields → List (String × JSValue) → Bool
  | .nil, es => es.isEmpty
  | .cons k c rest, es =>
    match es with
    | [] => false
    | (k', x) :: es' => k' == k && accepts c x && acceptsFields rest es'

/-- Domain acceptance for a tuple value: same length, pointwise
accepted. -/
def acceptsTuple : Convs → List JSValue → Bool
  | .nil, xs => xs.isEmpty
  | .cons c rest, xs =>
    match xs with
    | [] => false
    | x :: xs' => accepts c x && acceptsTuple rest xs'

/-- Domain acceptance for a union value: its extracted tag names a
variant, and that variant accepts it. -/
def acceptsUnion : Fields → String → JSValue → Bool
  | .nil, _, _ => false
  | .cons k c rest, tag, v => if k = tag then accepts c v else acceptsUnion rest tag v
end

mutual
/-- The sub-grammar of converters whose serialization is lossless: all
primitives and the object/array/tuple/record composites and
optional/nullable/lazy modifiers over lossless children.  It excludes the
four combinators whose serialization can discard or shadow information —
withDefault (a serialized `undefined` deserializes to the default),
mapped/rename (key tables may drop or collide fields) and union (a
payload field named like the tag shadows the tag). -/
def faithful : Conv → Bool
  | .stringC => true
  | .numberC => true
  | .booleanC => true
  | .dateC => true
  | .literal _ => true
  | .enumC _ => true
  | .object fs => faithfulFields fs
  | .array c => faithful c
  | .tuple items => faithfulConvs items
  | .record c => faithful c
  | .union _ _ _ => false
  | .optional c => faithful c
  | .nullable c => faithful c
  | .withDefault _ _ => false
  | .mapped _ _ => false
  | .rename _ _ => false
  | .lazyC c => faithful c

/-- Lossless field tables. -/
def faithfulFields : Fields → Bool
  | .nil => true
  | .cons _ c rest => faithful c && faithfulFields rest

/-- Lossless tuple item lists. -/
def faithfulConvs : Convs → Bool
  | .nil => true
  | .cons c rest => faithful c && faithfulConvs rest
end

theorem deserArrayItems_congr (f g : JSValue → Except String JSValue) (xs : List JSValue)
    (h : ∀ x ∈ xs, f x = g x) : ∀ i, deserArrayItems f xs i = deserArrayItems g xs i := by
  induction xs with
  | nil => intro i; rfl
  | cons x rest ih =>
    intro i
    simp only [deserArrayItems]
    rw [h x (List.mem_cons_self x rest), ih (fun y hy => h y (List.mem_cons_of_mem x hy)) (i + 1)]

theorem deserRecordEntries_congr (f g : JSValue → Except String JSValue)
    (es : List (String × JSValue)) (h : ∀ p ∈ es, f p.2 = g p.2) :
    deserRecordEntries f es = deserRecordEntries g es := by
  induction es with
  | nil => rfl
  | cons p rest ih =>
    obtain ⟨k, x⟩ := p
    simp only [deserRecordEntries]
    rw [h ⟨k, x⟩ (List.mem_cons_self _ rest), ih (fun q hq => h q (List.mem_cons_of_mem _ hq))]

mutual
theorem deserEqConv (D : DateImpl) (c : Conv) (v : JSValue) :
    throwingDeserialize D c v = safeDeserialize D c v := by
  cases c with
  | stringC => rfl
  | numberC => rfl
  | booleanC => rfl
  | dateC => rfl
  | literal l => rfl
  | enumC validValues => rfl
  | object fs =>
    simp only [throwingDeserialize, safeDeserialize, deserEqFields D fs (entriesOf v)]
  | array c =>
    cases v with
    | arr xs =>
      simp only [throwingDeserialize, safeDeserialize]
      rw [deserArrayItems_congr (fun x => throwingDeserialize D c x)
        (fun x => safeDeserialize D c x) xs (fun x _ => deserEqConv D c x) 0]
    | str s => rfl
    | num n => rfl
    | bool b => rfl
    | null => rfl
    | undef => rfl
    | obj es => rfl
    | date t => rfl
  | tuple items =>
    cases v with
    | arr xs =>
      simp only [throwingDeserialize, safeDeserialize]
      rw [deserEqTuple D items xs 0]
    | str s => rfl
    | num n => rfl
    | bool b => rfl
    | null => rfl
    | undef => rfl
    | obj es => rfl
    | date t => rfl
  | record c =>
    simp only [throwingDeserialize, safeDeserialize]
    rw [deserRecordEntries_congr _ _ (entriesOf v) (fun p _ => deserEqConv D c p.2)]
  | union variants tagExtractor tagField =>
    simp only [throwingDeserialize, safeDeserialize,
      deserEqUnion D variants (objGet (entriesOf v) tagField) v]
  | optional c =>
    simp only [throwingDeserialize, safeDeserialize]
    cases v <;> simp only [deserEqConv D c]
  | nullable c =>
    simp only [throwingDeserialize, safeDeserialize]
    cases v <;> simp only [deserEqConv D c]
  | withDefault c d =>
    simp only [throwingDeserialize, safeDeserialize]
    cases v <;> simp only [deserEqConv D c]
  | mapped c keyTable =>
    simp only [throwingDeserialize, safeDeserialize, deserEqConv D c]
  | rename c fieldMapping =>
    simp only [throwingDeserialize, safeDeserialize, deserEqConv D c]
  | lazyC c =>
    simp only [throwingDeserialize, safeDeserialize, deserEqConv D c]

theorem deserEqFields (D : DateImpl) (fs : Fields) (es : List (String × JSValue)) :
    deserFieldsThrow D fs es = deserFieldsSafe D fs es := by
  cases fs with
  | nil => rfl
  | cons k c rest =>
    simp only [deserFieldsThrow, deserFieldsSafe, deserEqConv D c (objGet es k),
      deserEqFields D rest es]

theorem deserEqTuple (D : DateImpl) (items : Convs) (ws : List JSValue) (i : Nat) :
    deserTupleThrow D items ws i = deserTupleSafe D items ws i := by
  cases items with
  | nil => rfl
  | cons c rest =>
    simp only [deserTupleThrow, deserTupleSafe, deserEqConv D c (ws.getD i .undef),
      deserEqTuple D rest ws (i + 1)]

theorem deserEqUnion (D : DateImpl) (variants : Fields) (tagVal : JSValue) (v : JSValue) :
    deserUnionThrow D variants tagVal v = deserUnionSafe D variants tagVal v := by
  cases variants with
  | nil => rfl
  | cons k c rest =>
    simp only [deserUnionThrow, deserUnionSafe, deserEqConv D c v,
      deserEqUnion D rest tagVal v]
end

theorem runLazyOps_memoized (D : DateImpl) (factory : Unit → Conv) (n : Nat)
    (ops : List LazyOp) :
    runLazyOps D factory ⟨some (factory ()), n⟩ ops
      = (ops.map (directResult D (factory ())), ⟨some (factory ()), n⟩) := by
  induction ops with
  | nil => rfl
  | cons op rest ih => cases op <;> simp [runLazyOps, runLazyOp, lazyResolve, ih, directResult]

/-- C2: for every converter and every input, the exception-raising
deserialize and the result-returning deserialize agree exactly — same
success/failure determination, same result value, same error text — and
the `createSerde` adapters that mechanically derive one calling convention
from the other preserve that outcome verbatim. -/
theorem claim_C2_dual_mode_agreement :
    (∀ (D : DateImpl) (c : Conv) (v : JSValue),
      throwingDeserialize D c v = safeDeserialize D c v) ∧
    (∀ (f : JSValue → Except String JSValue) (s : JSValue),
      deriveThrowing f s = f s ∧ deriveSafe f s = f s) := by
  refine ⟨fun D c v => deserEqConv D c v, fun f s => ⟨?_, ?_⟩⟩ <;>
    · cases hfs : f s <;> simp [deriveThrowing, deriveSafe, hfs]

/-- C3: across any sequence of serialize and deserialize calls on a lazy
converter, the zero-argument factory is invoked at most once (exactly once
as soon as there is at least one call), the first use memoizes its result
in the slot, and every call's outcome is that of the memoized converter,
the factory never being consulted again. -/
theorem claim_C3_lazy_factory_once (D : DateImpl) (factory : Unit → Conv) (ops : List LazyOp) :
    (runLazyOps D factory ⟨none, 0⟩ ops).2.calls ≤ 1 ∧
    (runLazyOps D factory ⟨none, 0⟩ ops).2.calls = min ops.length 1 ∧
    (runLazyOps D factory ⟨none, 0⟩ ops).2.slot
      = (if ops.isEmpty then none else some (factory ())) ∧
    (runLazyOps D factory ⟨none, 0⟩ ops).1 = ops.map (directResult D (factory ())) := by
  cases ops with
  | nil => exact ⟨Nat.zero_le 1, rfl, rfl, rfl⟩
  | cons op rest =>
    have hstep : runLazyOps D factory ⟨none, 0⟩ (op :: rest)
        = (directResult D (factory ()) op :: rest.map (directResult D (factory ())),
           ⟨some (factory ()), 1⟩) := by
      cases op <;>
        simp [runLazyOps, runLazyOp, lazyResolve, runLazyOps_memoized D factory 1 rest,
          directResult]
    rw [hstep]
    refine ⟨Nat.le_refl 1, ?_, rfl, rfl⟩
    simp [Nat.min_def]

/-- C7: the string converter's deserialize succeeds with the input exactly
when its `typeof` is `"string"` and otherwise fails with exactly
`Expected string, got <typeof input>`; the number and boolean converters
behave identically with their type names substituted, e.g.
`string.deserialize(123)` fails with exactly
`"Expected string, got number"`. -/
theorem claim_C7_primitive_type_checks :
    (∀ (D : DateImpl) (v : JSValue),
      safeDeserialize D .stringC v
        = (if typeofJS v = "string" then .ok v
           else .error ("Expected string, got " ++ typeofJS v)) ∧
      safeDeserialize D .numberC v
        = (if typeofJS v = "number" then .ok v
           else .error ("Expected number, got " ++ typeofJS v)) ∧
      safeDeserialize D .booleanC v
        = (if typeofJS v = "boolean" then .ok v
           else .error ("Expected boolean, got " ++ typeofJS v))) ∧
    safeDeserialize unaryDateImpl .stringC (.num 123) = .error ("Expected string, got number") := by
  refine ⟨fun D v => ⟨?_, ?_, ?_⟩, rfl⟩ <;> cases v <;> rfl

/-- C8: the date converter serializes a Date to its ISO string; its
deserialize rejects every non-string input with exactly
`Expected string for date, got <typeof input>`, rejects a string that
parses to an invalid date (NaN timestamp) with exactly
`Invalid date string: <input>`, and otherwise succeeds with the parsed
Date. -/
theorem claim_C8_date_converter (D : DateImpl) (v : JSValue) (t : Int) (s : String) :
    serialize D .dateC (.date t) = some (.str (D.toISO t)) ∧
    (typeofJS v ≠ "string" →
      safeDeserialize D .dateC v = .error ("Expected string for date, got " ++ typeofJS v)) ∧
    (D.parse s = none →
      safeDeserialize D .dateC (.str s) = .error ("Invalid date string: " ++ s)) ∧
    (∀ u : Int, D.parse s = some u →
      safeDeserialize D .dateC (.str s) = .ok (.date u)) := by
  refine ⟨rfl, ?_, ?_, ?_⟩
  · intro h
    cases v with
    | str s' => exact absurd rfl h
    | num n => rfl
    | bool b => rfl
    | null => rfl
    | undef => rfl
    | arr xs => rfl
    | obj es => rfl
    | date u => rfl
  · intro h
    simp [safeDeserialize, h]
  · intro u h
    simp [safeDeserialize, h]

/-- Witness for C8 at concrete inputs: a number input, an unparsable
string and a parsable string, under the concrete witness `DateImpl`. -/
theorem claim_C8_date_converter_witness :
    safeDeserialize unaryDateImpl .dateC (.num 123)
      = .error ("Expected string for date, got number") ∧
    safeDeserialize unaryDateImpl .dateC (.str "b") = .error ("Invalid date string: b") ∧
    safeDeserialize unaryDateImpl .dateC (.str "aa") = .ok (.date 2) :=
  ⟨(claim_C8_date_converter unaryDateImpl (.num 123) 0 "b").2.1 (by decide),
   (claim_C8_date_converter unaryDateImpl (.num 123) 0 "b").2.2.1 rfl,
   (claim_C8_date_converter unaryDateImpl (.num 123) 0 "aa").2.2.2 2 rfl⟩

/-- `Array.isArray` (the sequence check of the array and tuple
deserializers). -/
def isArrayJS : JSValue → Bool
  | .arr _ => true
  | _ => false

/-- Concatenation of tuple item lists (used to state positional
properties about the tuple loop). -/
def Convs.append : Convs → Convs → Convs
  | .nil, gs => gs
  | .cons c rest, gs => .cons c (Convs.append rest gs)

theorem isStructuralObject_eq_false_iff (v : JSValue) :
    isStructuralObject v = false ↔ (∀ es, v ≠ .obj es) ∧ (∀ t, v ≠ .date t) := by
  cases v <;> simp [isStructuralObject]

theorem objGet_of_objHas_eq_false (es : List (String × JSValue)) (k : String)
    (h : objHas es k = false) : objGet es k = .undef := by
  induction es with
  | nil => rfl
  | cons p rest ih =>
    obtain ⟨k', v⟩ := p
    simp only [objHas, Bool.or_eq_false_iff] at h
    simp only [objGet, if_neg (by simpa using h.1)]
    exact ih h.2

theorem objGet_objAssign_self (base : List (String × JSValue)) (k : String) (v : JSValue) :
    objGet (objAssign base k v) k = v := by
  induction base with
  | nil => simp [objAssign, objGet]
  | cons p rest ih =>
    obtain ⟨k', v'⟩ := p
    by_cases h : k' = k
    · simp [objAssign, objGet, h]
    · simp [objAssign, objGet, h, ih]

theorem objGet_objAssign_other (base : List (String × JSValue)) (k' k : String) (v : JSValue)
    (h : k' ≠ k) : objGet (objAssign base k' v) k = objGet base k := by
  induction base with
  | nil => simp [objAssign, objGet, h]
  | cons p rest ih =>
    obtain ⟨k'', v'⟩ := p
    by_cases h2 : k'' = k'
    · simp [objAssign, objGet, h2, h]
    · simp only [objAssign, if_neg h2, objGet]
      by_cases h3 : k'' = k
      · simp [h3]
      · simp [h3, ih]

theorem mem_of_objHas (es : List (String × JSValue)) (k : String) (h : objHas es k = true) :
    k ∈ es.map Prod.fst := by
  induction es with
  | nil => simp [objHas] at h
  | cons p rest ih =>
    obtain ⟨k', v⟩ := p
    simp only [objHas, Bool.or_eq_true] at h
    rcases h with h | h
    · simp only [decide_eq_true_eq] at h
      subst h
      simp
    · simp [ih h]

theorem objGet_objAssignAll (us : List (String × JSValue)) (base : List (String × JSValue))
    (k : String) (hnd : (us.map Prod.fst).Nodup) :
    objGet (objAssignAll base us) k
      = (if objHas us k then objGet us k else objGet base k) := by
  induction us generalizing base with
  | nil => simp [objAssignAll, objHas]
  | cons p rest ih =>
    obtain ⟨k', v'⟩ := p
    simp only [List.map_cons, List.nodup_cons] at hnd
    by_cases h : k' = k
    · subst h
      have hrest : objHas rest k' = false := by
        by_contra hh
        simp only [Bool.not_eq_false] at hh
        exact hnd.1 (mem_of_objHas rest k' hh)
      simp [objAssignAll, objHas, ih _ hnd.2, hrest, objGet, objGet_objAssign_self]
    · simp [objAssignAll, objHas, ih _ hnd.2, objGet, h, Ne.symm h,
        objGet_objAssign_other _ _ _ _ h]

/-- The serialize-side union dispatch agrees with looking up the variant
table and then serializing (`variants[tag]!.serialize(value)`). -/
theorem serializeUnionAux_eq_lookup (D : DateImpl) (variants : Fields) (tag : String) (v : JSValue) :
    serializeUnionAux D variants tag v
      = (match Fields.lookup variants tag with
         | none => none
         | some c => serialize D c v) := by
  cases variants with
  | nil => rfl
  | cons k c rest =>
    by_cases h : k = tag
    · simp [serializeUnionAux, Fields.lookup, h]
    · simp [serializeUnionAux, Fields.lookup, h, serializeUnionAux_eq_lookup D rest tag v]

/-- The deserialize-side union dispatch agrees with looking up the variant
table by the coerced tag and delegating, failing with
`Unknown union variant` when the lookup misses. -/
theorem deserUnionSafe_eq_lookup (D : DateImpl) (variants : Fields) (tagVal v : JSValue) :
    deserUnionSafe D variants tagVal v
      = (match Fields.lookup variants (jsToString tagVal) with
         | none => .error ("Unknown union variant: " ++ jsToString tagVal)
         | some c => safeDeserialize D c v) := by
  cases variants with
  | nil => rfl
  | cons k c rest =>
    by_cases h : k = jsToString tagVal
    · simp [deserUnionSafe, Fields.lookup, h]
    · simp [deserUnionSafe, Fields.lookup, h, deserUnionSafe_eq_lookup D rest tagVal v]

theorem deserFieldsSafe_append_error (D : DateImpl) (pre : Fields) (k : String) (c : Conv)
    (rest : Fields) (es : List (String × JSValue)) (e : String)
    (hpre : ∃ ws, deserFieldsSafe D pre es = .ok ws)
    (hfail : safeDeserialize D c (objGet es k) = .error e) :
    deserFieldsSafe D (Fields.append pre (.cons k c rest)) es
      = .error ("Field '" ++ k ++ "': " ++ e) := by
  cases pre with
  | nil => simp [Fields.append, deserFieldsSafe, hfail]
  | cons k' c' pre' =>
    obtain ⟨ws, hws⟩ := hpre
    simp only [deserFieldsSafe] at hws
    cases h1 : safeDeserialize D c' (objGet es k') with
    | error e' => rw [h1] at hws; exact absurd hws (by simp)
    | ok x =>
      rw [h1] at hws
      cases h2 : deserFieldsSafe D pre' es with
      | error e' => rw [h2] at hws; exact absurd hws (by simp)
      | ok xs =>
        simp [Fields.append, deserFieldsSafe, h1,
          deserFieldsSafe_append_error D pre' k c rest es e ⟨xs, h2⟩ hfail]

theorem deserTupleSafe_append_error (D : DateImpl) (pre : Convs) (c : Conv) (rest : Convs)
    (ws : List JSValue) (e : String) :
    ∀ i, (∃ vs, deserTupleSafe D pre ws i = .ok vs) →
      safeDeserialize D c (ws.getD (i + Convs.length pre) .undef) = .error e →
      deserTupleSafe D (Convs.append pre (.cons c rest)) ws i
        = .error ("Tuple item at index " ++ toString (i + Convs.length pre) ++ ": " ++ e) := by
  cases pre with
  | nil =>
    intro i hpre hfail
    simp only [Convs.length, Nat.add_zero] at hfail ⊢
    simp only [Convs.append, deserTupleSafe, hfail]
  | cons c' pre' =>
    intro i hpre hfail
    obtain ⟨vs, hvs⟩ := hpre
    simp only [deserTupleSafe] at hvs
    cases h1 : safeDeserialize D c' (ws.getD i .undef) with
    | error e' => rw [h1] at hvs; exact absurd hvs (by simp)
    | ok x =>
      rw [h1] at hvs
      cases h2 : deserTupleSafe D pre' ws (i + 1) with
      | error e' => rw [h2] at hvs; exact absurd hvs (by simp)
      | ok xs =>
        have harith : i + Convs.length (Convs.cons c' pre') = (i + 1) + Convs.length pre' := by
          simp only [Convs.length]
          omega
        rw [harith] at hfail ⊢
        have hrec := deserTupleSafe_append_error D pre' c rest ws e (i + 1) ⟨xs, h2⟩ hfail
        simp only [Convs.append, deserTupleSafe, h1, hrec]

theorem deserFieldsSafe_ok_names (D : DateImpl) (fs : Fields) (es vs : List (String × JSValue))
    (h : deserFieldsSafe D fs es = .ok vs) : vs.map Prod.fst = Fields.names fs := by
  cases fs with
  | nil => simp only [deserFieldsSafe] at h; cases h; rfl
  | cons k c rest =>
    simp only [deserFieldsSafe] at h
    cases h1 : safeDeserialize D c (objGet es k) with
    | error e => rw [h1] at h; exact absurd h (by simp)
    | ok x =>
      rw [h1] at h
      cases h2 : deserFieldsSafe D rest es with
      | error e => rw [h2] at h; exact absurd h (by simp)
      | ok xs =>
        rw [h2] at h
        cases h
        simp [Fields.names, deserFieldsSafe_ok_names D rest es xs h2]

theorem deserFieldsSafe_ok_each (D : DateImpl) (fs : Fields) (es vs : List (String × JSValue))
    (h : deserFieldsSafe D fs es = .ok vs) :
    ∀ p ∈ Fields.toList fs, ∃ x, safeDeserialize D p.2 (objGet es p.1) = .ok x := by
  cases fs with
  | nil => intro p hp; simp [Fields.toList] at hp
  | cons k c rest =>
    intro p hp
    simp only [deserFieldsSafe] at h
    cases h1 : safeDeserialize D c (objGet es k) with
    | error e => rw [h1] at h; exact absurd h (by simp)
    | ok x =>
      rw [h1] at h
      cases h2 : deserFieldsSafe D rest es with
      | error e => rw [h2] at h; exact absurd h (by simp)
      | ok xs =>
        simp only [Fields.toList, List.mem_cons] at hp
        rcases hp with hp | hp
        · subst hp; exact ⟨x, h1⟩
        · exact deserFieldsSafe_ok_each D rest es xs h2 p hp

/-- C4: an object converter's deserialize fails with exactly
`Expected object` whenever the input is not a non-null, non-array object;
on an object input it deserializes the declared fields in declaration
order, and at the first field whose sub-converter fails with `e` it
returns exactly `Field '<name>': ` followed by `e` — one prefix added by
the immediate parent only, whatever error the child propagated; when every
field succeeds it returns a fresh record of the field results. -/
theorem claim_C4_object_error_handling (D : DateImpl) (fs pre rest : Fields) (k : String)
    (c : Conv) (v : JSValue) (es vs : List (String × JSValue)) (e : String) :
    (isStructuralObject v = false →
      safeDeserialize D (.object fs) v = .error ("Expected object")) ∧
    ((∃ ws, deserFieldsSafe D pre es = .ok ws) →
      safeDeserialize D c (objGet es k) = .error e →
      safeDeserialize D (.object (Fields.append pre (.cons k c rest))) (.obj es)
        = .error ("Field '" ++ k ++ "': " ++ e)) ∧
    (deserFieldsSafe D fs es = .ok vs →
      safeDeserialize D (.object fs) (.obj es) = .ok (.obj vs)) := by
  refine ⟨fun h => ?_, fun hpre hfail => ?_, fun h => ?_⟩
  · simp [safeDeserialize, h]
  · simp [safeDeserialize, entriesOf, isStructuralObject, Except.map,
      deserFieldsSafe_append_error D pre k c rest es e hpre hfail]
  · simp [safeDeserialize, entriesOf, isStructuralObject, Except.map, h]

/-- Witness for C4: a non-object input, a failing middle field after a
succeeding one, and an all-fields-succeed input (undeclared keys
dropped). -/
theorem claim_C4_object_error_handling_witness :
    safeDeserialize unaryDateImpl (.object (.cons "name" .stringC .nil)) (.str "no")
      = .error ("Expected object") ∧
    safeDeserialize unaryDateImpl
      (.object (.cons "name" .stringC (.cons "age" .numberC .nil)))
      (.obj [("name", .str "Bob"), ("age", .str "x")])
      = .error ("Field 'age': Expected number, got string") ∧
    safeDeserialize unaryDateImpl (.object (.cons "name" .stringC .nil))
      (.obj [("name", .str "Bob"), ("age", .str "x")])
      = .ok (.obj [("name", .str "Bob")]) :=
  ⟨(claim_C4_object_error_handling unaryDateImpl (.cons "name" .stringC .nil) .nil .nil
      "name" .stringC (.str "no") [] [] "").1 rfl,
   (claim_C4_object_error_handling unaryDateImpl .nil (.cons "name" .stringC .nil) .nil
      "age" .numberC .undef [("name", .str "Bob"), ("age", .str "x")] []
      "Expected number, got string").2.1 ⟨[("name", .str "Bob")], rfl⟩ rfl,
   (claim_C4_object_error_handling unaryDateImpl (.cons "name" .stringC .nil) .nil .nil
      "k" .stringC .undef [("name", .str "Bob"), ("age", .str "x")]
      [("name", .str "Bob")] "").2.2 rfl⟩

/-- C5: a union converter's serialize picks the variant named by
`tagExtractor(value)`, serializes the value with that variant's converter,
and merges `{[tagField]: tag, ...payload}` — the tag entry is spread
first, so when the payload has a key equal to `tagField` the payload's
value overwrites the tag in the merged result, and otherwise the merged
result carries the tag at `tagField`. -/
theorem claim_C5_union_serialize_tag_merge (D : DateImpl) (variants : Fields)
    (tagExtractor : JSValue → String) (tagField : String) (v w : JSValue) (c : Conv)
    (hlk : Fields.lookup variants (tagExtractor v) = some c)
    (hser : serialize D c v = some w)
    (hnd : ((enumEntries w).map Prod.fst).Nodup) :
    serialize D (.union variants tagExtractor tagField) v
      = some (.obj (objAssignAll [(tagField, .str (tagExtractor v))] (enumEntries w))) ∧
    (objHas (enumEntries w) tagField = true →
      objGet (objAssignAll [(tagField, .str (tagExtractor v))] (enumEntries w)) tagField
        = objGet (enumEntries w) tagField) ∧
    (objHas (enumEntries w) tagField = false →
      objGet (objAssignAll [(tagField, .str (tagExtractor v))] (enumEntries w)) tagField
        = .str (tagExtractor v)) := by
  refine ⟨?_, fun h => ?_, fun h => ?_⟩
  · simp only [serialize, serializeUnionAux_eq_lookup, hlk, hser, Option.map_some']
  · rw [objGet_objAssignAll _ _ _ hnd, if_pos h]
  · rw [objGet_objAssignAll _ _ _ hnd, if_neg (by simp [h])]
    simp [objGet]

/-- Witness for C5: a variant without a tag-named payload field keeps the
tag; a variant whose payload declares the tag field overwrites it. -/
theorem claim_C5_union_serialize_tag_merge_witness :
    serialize unaryDateImpl
      (.union (.cons "circle" (.object (.cons "r" .numberC .nil)) .nil) (fun _ => "circle") "type")
      (.obj [("r", .num 2)])
      = some (.obj [("type", .str "circle"), ("r", .num 2)]) ∧
    serialize unaryDateImpl
      (.union (.cons "b" (.object (.cons "type" (.literal (.str "x")) .nil)) .nil) (fun _ => "b") "type")
      (.obj [("type", .str "x")])
      = some (.obj [("type", .str "x")]) ∧
    objGet (objAssignAll [("type", .str "b")] [("type", .str "x")]) "type" = .str "x" :=
  ⟨(claim_C5_union_serialize_tag_merge unaryDateImpl
      (.cons "circle" (.object (.cons "r" .numberC .nil)) .nil) (fun _ => "circle") "type"
      (.obj [("r", .num 2)]) (.obj [("r", .num 2)]) (.object (.cons "r" .numberC .nil))
      rfl rfl (by decide)).1,
   (claim_C5_union_serialize_tag_merge unaryDateImpl
      (.cons "b" (.object (.cons "type" (.literal (.str "x")) .nil)) .nil) (fun _ => "b") "type"
      (.obj [("type", .str "x")]) (.obj [("type", .str "x")])
      (.object (.cons "type" (.literal (.str "x")) .nil)) rfl rfl (by decide)).1,
   (claim_C5_union_serialize_tag_merge unaryDateImpl
      (.cons "b" (.object (.cons "type" (.literal (.str "x")) .nil)) .nil) (fun _ => "b") "type"
      (.obj [("type", .str "x")]) (.obj [("type", .str "x")])
      (.object (.cons "type" (.literal (.str "x")) .nil)) rfl rfl (by decide)).2.1 rfl⟩

/-- C6: a tuple converter's deserialize fails with exactly
`Expected array for tuple` on every non-array input (so the array check is
decided before any length consideration), fails with exactly
`Expected tuple of length <n>, got <m>` on an array of the wrong length,
and otherwise deserializes positions in index order, wrapping the first
failing position as `Tuple item at index <i>: <error>`. -/
theorem claim_C6_tuple_error_handling (D : DateImpl) (items pre rest : Convs) (c : Conv)
    (v : JSValue) (xs : List JSValue) (e : String) :
    (isArrayJS v = false →
      safeDeserialize D (.tuple items) v = .error ("Expected array for tuple")) ∧
    (xs.length ≠ Convs.length items →
      safeDeserialize D (.tuple items) (.arr xs)
        = .error ("Expected tuple of length " ++ toString (Convs.length items)
            ++ ", got " ++ toString xs.length)) ∧
    (xs.length = Convs.length (Convs.append pre (.cons c rest)) →
      (∃ vs, deserTupleSafe D pre xs 0 = .ok vs) →
      safeDeserialize D c (xs.getD (Convs.length pre) .undef) = .error e →
      safeDeserialize D (.tuple (Convs.append pre (.cons c rest))) (.arr xs)
        = .error ("Tuple item at index " ++ toString (Convs.length pre) ++ ": " ++ e)) := by
  refine ⟨fun h => ?_, fun h => ?_, fun hlen hpre hfail => ?_⟩
  · cases v with
    | arr xs => exact absurd h (by simp [isArrayJS])
    | str s => rfl
    | num n => rfl
    | bool b => rfl
    | null => rfl
    | undef => rfl
    | obj es => rfl
    | date t => rfl
  · simp only [safeDeserialize, if_neg h]
  · have hrec := deserTupleSafe_append_error D pre c rest xs e 0 hpre
      (by simpa using hfail)
    simp only [Nat.zero_add] at hrec
    simp only [safeDeserialize, if_pos hlen, hrec, Except.map]

/-- Witness for C6: a string input, a length mismatch, and a failing
position after a succeeding one. -/
theorem claim_C6_tuple_error_handling_witness :
    safeDeserialize unaryDateImpl (.tuple (.cons .stringC (.cons .numberC .nil))) (.str "no")
      = .error ("Expected array for tuple") ∧
    safeDeserialize unaryDateImpl (.tuple (.cons .stringC (.cons .numberC .nil)))
      (.arr [.str "a"]) = .error ("Expected tuple of length 2, got 1") ∧
    safeDeserialize unaryDateImpl (.tuple (.cons .stringC (.cons .numberC .nil)))
      (.arr [.str "a", .str "b"])
      = .error ("Tuple item at index 1: Expected number, got string") :=
  ⟨(claim_C6_tuple_error_handling unaryDateImpl (.cons .stringC (.cons .numberC .nil))
      .nil .nil .stringC (.str "no") [] "").1 rfl,
   (claim_C6_tuple_error_handling unaryDateImpl (.cons .stringC (.cons .numberC .nil))
      .nil .nil .stringC .undef [.str "a"] "").2.1 (by decide),
   (claim_C6_tuple_error_handling unaryDateImpl .nil (.cons .stringC .nil) .nil
      .numberC .undef [.str "a", .str "b"] "Expected number, got string").2.2
      (by decide) ⟨[.str "a"], rfl⟩ rfl⟩

/-- C9: the result-returning deserializers are total — for every converter
and every input whatsoever they deliver either a success or a failure
result, never an exception (JS crashes are a serialization-side-only
modality in this model) — and no failure is swallowed: if an object
composite succeeds, every one of its declared fields' sub-deserializations
succeeded. -/
theorem claim_C9_safe_total_no_swallow :
    (∀ (D : DateImpl) (c : Conv) (v : JSValue),
      (∃ x, safeDeserialize D c v = .ok x) ∨ (∃ e, safeDeserialize D c v = .error e)) ∧
    (∀ (D : DateImpl) (fs : Fields) (es vs : List (String × JSValue)),
      deserFieldsSafe D fs es = .ok vs →
      ∀ p ∈ Fields.toList fs, ∃ x, safeDeserialize D p.2 (objGet es p.1) = .ok x) := by
  refine ⟨fun D c v => ?_, fun D fs es vs h => deserFieldsSafe_ok_each D fs es vs h⟩
  cases h : safeDeserialize D c v with
  | ok x => exact Or.inl ⟨x, rfl⟩
  | error e => exact Or.inr ⟨e, rfl⟩

/-- Witness for C9 at a concrete converter and input. -/
theorem claim_C9_safe_total_no_swallow_witness :
    ((∃ x, safeDeserialize unaryDateImpl .stringC .null = .ok x) ∨
      (∃ e, safeDeserialize unaryDateImpl .stringC .null = .error e)) ∧
    (∃ x, safeDeserialize unaryDateImpl .stringC (objGet [("a", .str "v")] "a") = .ok x) :=
  ⟨claim_C9_safe_total_no_swallow.1 unaryDateImpl .stringC .null,
   claim_C9_safe_total_no_swallow.2 unaryDateImpl (.cons "a" .stringC .nil)
     [("a", .str "v")] [("a", .str "v")] rfl ("a", .stringC) (List.mem_singleton.mpr rfl)⟩

/-- C10: when an object converter deserializes an object input
successfully the result carries exactly the declared field names (input
keys not declared are ignored and absent); a declared field missing from
the input is deserialized from the value `undefined`, so the whole
outcome is decided by the field converter's behaviour on `undefined` —
and an optional field converter accepts `undefined`. -/
theorem claim_C10_object_field_semantics (D : DateImpl) (fs rest : Fields) (k : String)
    (c : Conv) (es : List (String × JSValue)) (w : JSValue) :
    (safeDeserialize D (.object fs) (.obj es) = .ok w →
      ∃ vs, w = .obj vs ∧ vs.map Prod.fst = Fields.names fs) ∧
    (objHas es k = false →
      safeDeserialize D (.object (.cons k c rest)) (.obj es)
        = (match safeDeserialize D c .undef with
           | .error e => .error ("Field '" ++ k ++ "': " ++ e)
           | .ok x => (deserFieldsSafe D rest es).map (fun vs => JSValue.obj ((k, x) :: vs)))) ∧
    safeDeserialize D (.optional c) .undef = .ok .undef := by
  refine ⟨fun h => ?_, fun h => ?_, rfl⟩
  · simp only [safeDeserialize, entriesOf, isStructuralObject, if_true] at h
    cases hd : deserFieldsSafe D fs es with
    | error e => rw [hd] at h; exact absurd h (by simp [Except.map])
    | ok vs =>
      rw [hd] at h
      simp only [Except.map, Except.ok.injEq] at h
      exact ⟨vs, h.symm, deserFieldsSafe_ok_names D fs es vs hd⟩
  · have hu : objGet es k = .undef := objGet_of_objHas_eq_false es k h
    cases hc : safeDeserialize D c .undef with
    | error e =>
      simp [safeDeserialize, entriesOf, isStructuralObject, Except.map, deserFieldsSafe, hu, hc]
    | ok x =>
      cases hr : deserFieldsSafe D rest es with
      | error e =>
        simp [safeDeserialize, entriesOf, isStructuralObject, Except.map, deserFieldsSafe,
          hu, hc, hr]
      | ok vs =>
        simp [safeDeserialize, entriesOf, isStructuralObject, Except.map, deserFieldsSafe,
          hu, hc, hr]

/-- Witness for C10: an input with one undeclared key and one missing
declared optional field deserializes to exactly the declared field, bound
to `undefined`. -/
theorem claim_C10_object_field_semantics_witness :
    (∃ vs, JSValue.obj [("a", JSValue.undef)] = JSValue.obj vs ∧
      vs.map Prod.fst = Fields.names (.cons "a" (.optional .stringC) .nil)) ∧
    safeDeserialize unaryDateImpl (.object (.cons "a" (.optional .stringC) .nil))
      (.obj [("x", .num 1)])
      = (match safeDeserialize unaryDateImpl (.optional .stringC) .undef with
         | .error e => .error ("Field 'a': " ++ e)
         | .ok x => (deserFieldsSafe unaryDateImpl .nil [("x", .num 1)]).map
             (fun vs => JSValue.obj (("a", x) :: vs))) ∧
    safeDeserialize unaryDateImpl (.optional .stringC) .undef = .ok .undef :=
  ⟨(claim_C10_object_field_semantics unaryDateImpl (.cons "a" (.optional .stringC) .nil)
      .nil "a" (.optional .stringC) [("x", .num 1)] (.obj [("a", .undef)])).1 rfl,
   (claim_C10_object_field_semantics unaryDateImpl (.cons "a" (.optional .stringC) .nil)
      .nil "a" (.optional .stringC) [("x", .num 1)] (.obj [("a", .undef)])).2.1 rfl,
   (claim_C10_object_field_semantics unaryDateImpl (.cons "a" (.optional .stringC) .nil)
      .nil "a" (.optional .stringC) [("x", .num 1)] (.obj [("a", .undef)])).2.2⟩

theorem strictEq_eq (a b : JSValue) (h : strictEq a b = true) : a = b := by
  cases a <;> cases b <;> simp_all [strictEq]

theorem strictEq_refl_of_isPrimitive (a : JSValue) (h : isPrimitive a = true) :
    strictEq a a = true := by
  cases a <;> simp_all [strictEq, isPrimitive]

theorem serializeFields_frame (D : DateImpl) (fs : Fields) (es es' : List (String × JSValue))
    (h : ∀ n ∈ Fields.names fs, objGet es n = objGet es' n) :
    serializeFields D fs (.obj es) = serializeFields D fs (.obj es') := by
  cases fs with
  | nil => rfl
  | cons k c rest =>
    have hk := h k (by simp [Fields.names])
    simp only [serializeFields, jsIndex, hk,
      serializeFields_frame D rest es es'
        (fun n hn => h n (by simp [Fields.names, List.mem_cons, hn]))]

theorem deserFieldsSafe_frame (D : DateImpl) (fs : Fields) (ses ses' : List (String × JSValue))
    (h : ∀ n ∈ Fields.names fs, objGet ses n = objGet ses' n) :
    deserFieldsSafe D fs ses = deserFieldsSafe D fs ses' := by
  cases fs with
  | nil => rfl
  | cons k c rest =>
    have hk := h k (by simp [Fields.names])
    simp only [deserFieldsSafe, hk,
      deserFieldsSafe_frame D rest ses ses'
        (fun n hn => h n (by simp [Fields.names, List.mem_cons, hn]))]

theorem rtArrayAux (D : DateImpl) (c : Conv)
    (IH : ∀ x, accepts c x = true →
      ∃ w, serialize D c x = some w ∧ safeDeserialize D c w = .ok x)
    (xs : List JSValue) (hall : xs.all (fun x => accepts c x) = true) :
    ∃ ws, mapOptionJS (fun x => serialize D c x) xs = some ws ∧
      ∀ i, deserArrayItems (fun x => safeDeserialize D c x) ws i = .ok xs := by
  induction xs with
  | nil => exact ⟨[], rfl, fun i => rfl⟩
  | cons x rest ih =>
    simp only [List.all_cons, Bool.and_eq_true] at hall
    obtain ⟨w, hw, hdw⟩ := IH x hall.1
    obtain ⟨ws, hws, hdws⟩ := ih hall.2
    refine ⟨w :: ws, ?_, fun i => ?_⟩
    · simp [mapOptionJS, hw, hws]
    · simp [deserArrayItems, hdw, hdws (i + 1)]

theorem rtRecordAux (D : DateImpl) (c : Conv)
    (IH : ∀ x, accepts c x = true →
      ∃ w, serialize D c x = some w ∧ safeDeserialize D c w = .ok x)
    (es : List (String × JSValue)) (hall : es.all (fun p => accepts c p.2) = true) :
    ∃ ses, mapEntriesOptionJS (fun x => serialize D c x) es = some ses ∧
      deserRecordEntries (fun x => safeDeserialize D c x) ses = .ok es := by
  induction es with
  | nil => exact ⟨[], rfl, rfl⟩
  | cons p rest ih =>
    obtain ⟨k, x⟩ := p
    simp only [List.all_cons, Bool.and_eq_true] at hall
    obtain ⟨w, hw, hdw⟩ := IH x hall.1
    obtain ⟨ses, hses, hdses⟩ := ih hall.2
    refine ⟨(k, w) :: ses, ?_, ?_⟩
    · simp [mapEntriesOptionJS, hw, hses]
    · simp [deserRecordEntries, hdw, hdses]

mutual
theorem rtConv (D : DateImpl) (hD : ∀ t : Int, D.parse (D.toISO t) = some t)
    (c : Conv) (hf : faithful c = true) (v : JSValue) (ha : accepts c v = true) :
    ∃ w, serialize D c v = some w ∧ safeDeserialize D c w = .ok v ∧
      (w = .undef → v = .undef) ∧ (w = .null → v = .null) := by
  cases c with
  | stringC =>
    cases v <;> first
      | exact ⟨_, rfl, rfl, nofun, nofun⟩
      | simp [accepts] at ha
  | numberC =>
    cases v <;> first
      | exact ⟨_, rfl, rfl, nofun, nofun⟩
      | simp [accepts] at ha
  | booleanC =>
    cases v <;> first
      | exact ⟨_, rfl, rfl, nofun, nofun⟩
      | simp [accepts] at ha
  | dateC =>
    cases v with
    | date t =>
      refine ⟨.str (D.toISO t), rfl, ?_, nofun, nofun⟩
      simp [safeDeserialize, hD t]
    | str s => simp [accepts] at ha
    | num n => simp [accepts] at ha
    | bool b => simp [accepts] at ha
    | null => simp [accepts] at ha
    | undef => simp [accepts] at ha
    | arr xs => simp [accepts] at ha
    | obj es => simp [accepts] at ha
  | literal l =>
    simp only [accepts, Bool.and_eq_true] at ha
    have hv : v = l := strictEq_eq v l ha.1
    subst hv
    refine ⟨v, rfl, ?_, id, id⟩
    simp [safeDeserialize, strictEq_refl_of_isPrimitive v ha.2]
  | enumC validValues =>
    simp only [accepts, Bool.and_eq_true] at ha
    refine ⟨v, rfl, ?_, fun h => absurd (h ▸ ha.2) (by decide), fun h => absurd (h ▸ ha.2) (by decide)⟩
    simp [safeDeserialize, ha.1]
  | object fs =>
    cases v with
    | obj es =>
      simp only [accepts, Bool.and_eq_true, decide_eq_true_eq] at ha
      obtain ⟨ses, hser, hkeys, hdes⟩ := rtFields D hD fs hf es ha.1 ha.2
      refine ⟨.obj ses, ?_, ?_, nofun, nofun⟩
      · simp [serialize, hser]
      · simp [safeDeserialize, entriesOf, isStructuralObject, Except.map, hdes]
    | str s => simp [accepts] at ha
    | num n => simp [accepts] at ha
    | bool b => simp [accepts] at ha
    | null => simp [accepts] at ha
    | undef => simp [accepts] at ha
    | arr xs => simp [accepts] at ha
    | date t => simp [accepts] at ha
  | array c =>
    cases v with
    | arr xs =>
      obtain ⟨ws, hws, hdws⟩ := rtArrayAux D c
        (fun x hx => (rtConv D hD c hf x hx).imp (fun w h => ⟨h.1, h.2.1⟩)) xs ha
      refine ⟨.arr ws, ?_, ?_, nofun, nofun⟩
      · simp [serialize, hws]
      · simp [safeDeserialize, hdws 0, Except.map]
    | str s => simp [accepts] at ha
    | num n => simp [accepts] at ha
    | bool b => simp [accepts] at ha
    | null => simp [accepts] at ha
    | undef => simp [accepts] at ha
    | obj es => simp [accepts] at ha
    | date t => simp [accepts] at ha
  | tuple items =>
    cases v with
    | arr xs =>
      obtain ⟨ss, hss, hlen, hdes⟩ := rtTuple D hD items hf xs xs 0
        (fun j => by simp) ha
      refine ⟨.arr ss, ?_, ?_, nofun, nofun⟩
      · simp [serialize, hss]
      · simp only [safeDeserialize, if_pos hlen.symm, hdes ss (fun j => by simp), Except.map]
    | str s => simp [accepts] at ha
    | num n => simp [accepts] at ha
    | bool b => simp [accepts] at ha
    | null => simp [accepts] at ha
    | undef => simp [accepts] at ha
    | obj es => simp [accepts] at ha
    | date t => simp [accepts] at ha
  | record c =>
    cases v with
    | obj es =>
      simp only [accepts, Bool.and_eq_true, decide_eq_true_eq] at ha
      obtain ⟨ses, hses, hdses⟩ := rtRecordAux D c
        (fun x hx => (rtConv D hD c hf x hx).imp (fun w h => ⟨h.1, h.2.1⟩)) es ha.2
      refine ⟨.obj ses, ?_, ?_, nofun, nofun⟩
      · simp [serialize, enumEntries, hses]
      · simp [safeDeserialize, entriesOf, isStructuralObject, Except.map, hdses]
    | str s => simp [accepts] at ha
    | num n => simp [accepts] at ha
    | bool b => simp [accepts] at ha
    | null => simp [accepts] at ha
    | undef => simp [accepts] at ha
    | arr xs => simp [accepts] at ha
    | date t => simp [accepts] at ha
  | union variants tagExtractor tagField => exact Bool.noConfusion hf
  | optional c =>
    by_cases hveq : v = .undef
    · subst hveq
      exact ⟨.undef, rfl, rfl, fun _ => rfl, nofun⟩
    · have ha' : accepts c v = true := by
        cases v <;> first | exact absurd rfl hveq | exact ha
      obtain ⟨w, hw, hdw, hwu, hwn⟩ := rtConv D hD c hf v ha'
      have hser : serialize D (.optional c) v = serialize D c v := by
        cases v <;> first | exact absurd rfl hveq | rfl
      have hwne : w ≠ .undef := fun h => hveq (hwu h)
      have hdes : safeDeserialize D (.optional c) w = safeDeserialize D c w := by
        cases w <;> first | exact absurd rfl hwne | rfl
      exact ⟨w, hser.trans hw, hdes.trans hdw, hwu, hwn⟩
  | nullable c =>
    by_cases hveq : v = .null
    · subst hveq
      exact ⟨.null, rfl, rfl, nofun, fun _ => rfl⟩
    · have ha' : accepts c v = true := by
        cases v <;> first | exact absurd rfl hveq | exact ha
      obtain ⟨w, hw, hdw, hwu, hwn⟩ := rtConv D hD c hf v ha'
      have hser : serialize D (.nullable c) v = serialize D c v := by
        cases v <;> first | exact absurd rfl hveq | rfl
      have hwne : w ≠ .null := fun h => hveq (hwn h)
      have hdes : safeDeserialize D (.nullable c) w = safeDeserialize D c w := by
        cases w <;> first | exact absurd rfl hwne | rfl
      exact ⟨w, hser.trans hw, hdes.trans hdw, hwu, hwn⟩
  | withDefault c d => exact Bool.noConfusion hf
  | mapped c keyTable => exact Bool.noConfusion hf
  | rename c fieldMapping => exact Bool.noConfusion hf
  | lazyC c => exact rtConv D hD c hf v ha

theorem rtFields (D : DateImpl) (hD : ∀ t : Int, D.parse (D.toISO t) = some t)
    (fs : Fields) (hf : faithfulFields fs = true) (es : List (String × JSValue))
    (hnd : (Fields.names fs).Nodup) (ha : acceptsFields fs es = true) :
    ∃ ses, serializeFields D fs (.obj es) = some ses ∧
      ses.map Prod.fst = Fields.names fs ∧ deserFieldsSafe D fs ses = .ok es := by
  cases fs with
  | nil =>
    have hes : es = [] := by simpa [acceptsFields, List.isEmpty_iff] using ha
    subst hes
    exact ⟨[], rfl, rfl, rfl⟩
  | cons k c rest =>
    cases es with
    | nil => simp [acceptsFields] at ha
    | cons p es' =>
      obtain ⟨k', x⟩ := p
      simp only [acceptsFields, Bool.and_eq_true, beq_iff_eq] at ha
      obtain ⟨⟨hk, hx⟩, hrest⟩ := ha
      subst hk
      simp only [Fields.names, List.nodup_cons] at hnd
      simp only [faithfulFields, Bool.and_eq_true] at hf
      obtain ⟨w, hw, hdw, _, _⟩ := rtConv D hD c hf.1 x hx
      obtain ⟨ses', hser', hkeys', hdes'⟩ := rtFields D hD rest hf.2 es' hnd.2 hrest
      have hgetx : objGet ((k', x) :: es') k' = x := by simp [objGet]
      have hframe1 : serializeFields D rest (.obj ((k', x) :: es'))
          = serializeFields D rest (.obj es') := by
        refine serializeFields_frame D rest _ _ (fun n hn => ?_)
        have hne : k' ≠ n := fun h => hnd.1 (h ▸ hn)
        simp [objGet, hne]
      refine ⟨(k', w) :: ses', ?_, ?_, ?_⟩
      · simp [serializeFields, jsIndex, hgetx, hw, hframe1, hser']
      · simp [Fields.names, hkeys']
      · have hframe2 : deserFieldsSafe D rest ((k', w) :: ses')
            = deserFieldsSafe D rest ses' := by
          refine deserFieldsSafe_frame D rest _ _ (fun n hn => ?_)
          have hne : k' ≠ n := fun h => hnd.1 (h ▸ hn)
          simp [objGet, hne]
        have hgetw : objGet ((k', w) :: ses') k' = w := by simp [objGet]
        simp [deserFieldsSafe, hgetw, hdw, hframe2, hdes']

theorem rtTuple (D : DateImpl) (hD : ∀ t : Int, D.parse (D.toISO t) = some t)
    (items : Convs) (hf : faithfulConvs items = true) (xs full : List JSValue) (i : Nat)
    (hfull : ∀ j, full.getD (i + j) .undef = xs.getD j .undef)
    (ha : acceptsTuple items xs = true) :
    ∃ ss, serializeTupleAux D items (.arr full) i = some ss ∧
      Convs.length items = ss.length ∧
      (∀ sfull : List JSValue, (∀ j, sfull.getD (i + j) .undef = ss.getD j .undef) →
        deserTupleSafe D items sfull i = .ok xs) := by
  cases items with
  | nil =>
    have hxs : xs = [] := by simpa [acceptsTuple, List.isEmpty_iff] using ha
    subst hxs
    exact ⟨[], rfl, rfl, fun sfull _ => rfl⟩
  | cons c rest =>
    cases xs with
    | nil => simp [acceptsTuple] at ha
    | cons x xs' =>
      simp only [acceptsTuple, Bool.and_eq_true] at ha
      simp only [faithfulConvs, Bool.and_eq_true] at hf
      obtain ⟨w, hw, hdw, _, _⟩ := rtConv D hD c hf.1 x ha.1
      have hfull' : ∀ j, full.getD ((i + 1) + j) .undef = xs'.getD j .undef := by
        intro j
        have h := hfull (j + 1)
        rw [show i + (j + 1) = (i + 1) + j by omega] at h
        simpa using h
      obtain ⟨ss', hss', hlen', hdes'⟩ := rtTuple D hD rest hf.2 xs' full (i + 1) hfull' ha.2
      have hfi : full.getD i .undef = x := by simpa using hfull 0
      rw [List.getD_eq_getElem?_getD] at hfi
      refine ⟨w :: ss', ?_, ?_, ?_⟩
      · simp [serializeTupleAux, jsIndexNat, hfi, hw, hss']
      · simp [Convs.length, hlen']
      · intro sfull hs
        have hs0 : sfull.getD i .undef = w := by simpa using hs 0
        rw [List.getD_eq_getElem?_getD] at hs0
        have hs' : ∀ j, sfull.getD ((i + 1) + j) .undef = ss'.getD j .undef := by
          intro j
          have h := hs (j + 1)
          rw [show i + (j + 1) = (i + 1) + j by omega] at h
          simpa using h
        simp [deserTupleSafe, hs0, hdw, hdes' sfull hs']
end

/-- C1 counterexample: the claim "for every converter built from the
combinators and every domain-accepted value, deserialize(serialize(v))
yields v" is false as stated.  Four combinator families lose information:
a withDefault over an optional turns a serialized `undefined` into the
default; a mapped converter with a key table that misses a field drops it;
a rename whose target key collides with an existing key shadows it; and a
union whose payload owns a field named like the tag overwrites the tag, so
deserialization no longer finds the variant.  Each conjunct exhibits a
converter and an accepted value whose round trip does not return the
value. -/
theorem claim_C1_roundtrip_counterexample :
    (accepts (.withDefault (.optional .stringC) (.str "x")) .undef = true ∧
      serialize unaryDateImpl (.withDefault (.optional .stringC) (.str "x")) .undef
        = some .undef ∧
      safeDeserialize unaryDateImpl (.withDefault (.optional .stringC) (.str "x")) .undef
        = .ok (.str "x") ∧
      JSValue.str "x" ≠ JSValue.undef) ∧
    (accepts (.mapped (.object (.cons "a" .stringC .nil)) []) (.obj [("a", .str "x")]) = true ∧
      serialize unaryDateImpl (.mapped (.object (.cons "a" .stringC .nil)) [])
        (.obj [("a", .str "x")]) = some (.obj []) ∧
      safeDeserialize unaryDateImpl (.mapped (.object (.cons "a" .stringC .nil)) [])
        (.obj []) = .error ("Field 'a': Expected string, got undefined")) ∧
    (accepts (.rename (.object (.cons "a" .stringC (.cons "b" .stringC .nil))) [("a", "b")])
        (.obj [("a", .str "x"), ("b", .str "y")]) = true ∧
      serialize unaryDateImpl
        (.rename (.object (.cons "a" .stringC (.cons "b" .stringC .nil))) [("a", "b")])
        (.obj [("a", .str "x"), ("b", .str "y")]) = some (.obj [("b", .str "y")]) ∧
      safeDeserialize unaryDateImpl
        (.rename (.object (.cons "a" .stringC (.cons "b" .stringC .nil))) [("a", "b")])
        (.obj [("b", .str "y")]) = .error ("Field 'b': Expected string, got undefined")) ∧
    (accepts (.union (.cons "a" (.object (.cons "type" (.literal (.str "b")) .nil)) .nil)
        (fun _ => "a") "type") (.obj [("type", .str "b")]) = true ∧
      serialize unaryDateImpl
        (.union (.cons "a" (.object (.cons "type" (.literal (.str "b")) .nil)) .nil)
          (fun _ => "a") "type") (.obj [("type", .str "b")])
        = some (.obj [("type", .str "b")]) ∧
      safeDeserialize unaryDateImpl
        (.union (.cons "a" (.object (.cons "type" (.literal (.str "b")) .nil)) .nil)
          (fun _ => "a") "type") (.obj [("type", .str "b")])
        = .error ("Unknown union variant: b")) :=
  ⟨⟨rfl, rfl, rfl, nofun⟩, ⟨rfl, rfl, rfl⟩, ⟨rfl, rfl, rfl⟩, ⟨rfl, rfl, rfl⟩⟩

/-- C1 (amended): for every converter built from the string, number,
boolean, date, literal and enum primitives, the object, array, tuple and
record composites and the optional, nullable and lazy modifiers — i.e.
excluding the information-losing withDefault, mapped, rename and union
combinators exhibited in the counterexample — and every value accepted by
the converter's domain, `deserialize(serialize(v))` succeeds and yields a
value equal to `v`; in particular Date values round-trip exactly through
their ISO string form, given the ECMAScript guarantee that parsing a
`toISOString` output recovers the same time value. -/
theorem claim_C1_roundtrip_amended (D : DateImpl)
    (hD : ∀ t : Int, D.parse (D.toISO t) = some t)
    (c : Conv) (hf : faithful c = true) (v : JSValue) (ha : accepts c v = true) :
    ∃ w, serialize D c v = some w ∧ safeDeserialize D c w = .ok v :=
  (rtConv D hD c hf v ha).imp (fun _ h => ⟨h.1, h.2.1⟩)

/-- Witness for C1 (amended) at a concrete nested converter — an object of
a date, an optional string and an array of numbers — and a concrete value,
under the concrete witness `DateImpl`. -/
theorem claim_C1_roundtrip_amended_witness :
    ∃ w,
      serialize unaryDateImpl
        (.object (.cons "when" .dateC (.cons "note" (.optional .stringC)
          (.cons "xs" (.array .numberC) .nil))))
        (.obj [("when", .date 2), ("note", .undef), ("xs", .arr [.num 1, .num 5])])
        = some w ∧
      safeDeserialize unaryDateImpl
        (.object (.cons "when" .dateC (.cons "note" (.optional .stringC)
          (.cons "xs" (.array .numberC) .nil)))) w
        = .ok (.obj [("when", .date 2), ("note", .undef), ("xs", .arr [.num 1, .num 5])]) :=
  claim_C1_roundtrip_amended unaryDateImpl unaryDateImpl_roundtrip
    (.object (.cons "when" .dateC (.cons "note" (.optional .stringC)
      (.cons "xs" (.array .numberC) .nil))))
    rfl
    (.obj [("when", .date 2), ("note", .undef), ("xs", .arr [.num 1, .num 5])])
    rfl

end SerdeSpec
